import Mathlib

/-!
Verification of the bounded TTL cache in src/main.rs.

The Rust cache is embedded shallowly:
* the HashMap field `data` becomes an association list with unique keys
  (lookup, insert, remove and len behave exactly as for a map);
* the VecDeque field `order` becomes a list whose head is the front
  (pop_front takes the head, push_back appends at the tail);
* Instant and Duration become Nat; every operation that reads the clock
  takes the current instant as an explicit argument `now`.
-/

set_option autoImplicit false

namespace ElCache

/-- One stored entry: the value together with its absolute expiration instant,
mirroring struct CacheEntry in the source. -/
structure CacheEntry (V : Type) where
  value : V
  expiration : Nat
deriving DecidableEq

/-- The cache state, mirroring struct Cache in the source: the map `data`,
the recency deque `order` (front = least recently touched), and `max_size`. -/
structure Cache (K V : Type) where
  data : List (K × CacheEntry V)
  order : List K
  max_size : Nat
deriving DecidableEq

variable {K V : Type} [DecidableEq K]

/-- Map lookup on the association list, first binding wins
(bindings are unique for every list built by insertA and eraseA from nil). -/
def lookupA : List (K × CacheEntry V) → K → Option (CacheEntry V)
  | [], _ => none
  | (k', e) :: rest, k => if k' = k then some e else lookupA rest k

/-- Map removal: drops every binding of the key (at most one exists). -/
def eraseA : List (K × CacheEntry V) → K → List (K × CacheEntry V)
  | [], _ => []
  | p :: rest, k => if p.1 = k then eraseA rest k else p :: eraseA rest k

/-- Map insertion: replaces any existing binding of the key. -/
def insertA (l : List (K × CacheEntry V)) (k : K) (e : CacheEntry V) :
    List (K × CacheEntry V) :=
  eraseA l k ++ [(k, e)]

/-- Removal of the first occurrence of a key from the recency deque;
this is remove_order in the source (position of first match, then remove). -/
def removeFirst : List K → K → List K
  | [], _ => []
  | x :: rest, k => if x = k then rest else x :: removeFirst rest k

/-- Cache::new. -/
def Cache.new (max_size : Nat) : Cache K V :=
  { data := [], order := [], max_size := max_size }

/-- Cache::delete: remove_order first, then data.remove, returning the
removed value if any. -/
def Cache.delete (c : Cache K V) (key : K) : Option V × Cache K V :=
  let c1 : Cache K V := { c with order := removeFirst c.order key }
  ((lookupA c1.data key).map (fun e => e.value),
   { c1 with data := eraseA c1.data key })

/-- Cache::get at instant `now`: a hit on an expired entry deletes it and
returns none; a live hit moves the key to the back of the deque and returns
the value; a miss returns none and touches nothing. -/
def Cache.get (c : Cache K V) (key : K) (now : Nat) : Option V × Cache K V :=
  match lookupA c.data key with
  | none => (none, c)
  | some entry =>
    if entry.expiration ≤ now then
      (none, (c.delete key).2)
    else
      let c' : Cache K V := { c with order := removeFirst c.order key ++ [key] }
      ((lookupA c'.data key).map (fun e => e.value), c')

/-- Cache::set at instant `now`: when data.len equals max_size the front of
the deque is popped and that key removed from the map (a no-op on an empty
deque, as pop_front returns None); then the new entry with expiration
now + ttl is inserted and the key pushed to the back of the deque. -/
def Cache.set (c : Cache K V) (key : K) (value : V) (ttl now : Nat) : Cache K V :=
  let c1 : Cache K V :=
    if c.data.length = c.max_size then
      match c.order with
      | [] => c
      | old_key :: restOrder =>
          { c with data := eraseA c.data old_key, order := restOrder }
    else c
  { c1 with
    data := insertA c1.data key { value := value, expiration := now + ttl },
    order := c1.order ++ [key] }

/-- Insert a list of fresh keys in order, each with value `f k`, ttl `d`,
at instant `t`. -/
def setAll (c : Cache K V) (ks : List K) (f : K → V) (d t : Nat) : Cache K V :=
  match ks with
  | [] => c
  | k :: rest => setAll (c.set k (f k) d t) rest f d t

/-! ### Lemmas about the association list -/

theorem lookupA_append (l1 l2 : List (K × CacheEntry V)) (k : K) :
    lookupA (l1 ++ l2) k =
      match lookupA l1 k with
      | some e => some e
      | none => lookupA l2 k := by
  induction l1 with
  | nil => simp [lookupA]
  | cons p rest ih =>
    obtain ⟨k', e⟩ := p
    by_cases h : k' = k <;> simp [lookupA, h, ih]

theorem lookupA_eraseA_self (l : List (K × CacheEntry V)) (k : K) :
    lookupA (eraseA l k) k = none := by
  induction l with
  | nil => simp [eraseA, lookupA]
  | cons p rest ih =>
    by_cases h : p.1 = k
    · simpa [eraseA, h] using ih
    · simpa [eraseA, lookupA, h] using ih

theorem lookupA_eraseA_ne (l : List (K × CacheEntry V)) (k k' : K)
    (h : k' ≠ k) : lookupA (eraseA l k) k' = lookupA l k' := by
  induction l with
  | nil => simp [eraseA]
  | cons p rest ih =>
    obtain ⟨k'', e⟩ := p
    simp only [eraseA, lookupA]
    by_cases h2 : k'' = k
    · have hne : ¬ (k'' = k') := by
        rw [h2]
        exact fun hh => h hh.symm
      rw [if_pos h2, if_neg hne, ih]
    · rw [if_neg h2]
      simp only [lookupA]
      rw [ih]

theorem lookupA_insertA_self (l : List (K × CacheEntry V)) (k : K)
    (e : CacheEntry V) : lookupA (insertA l k e) k = some e := by
  rw [insertA, lookupA_append, lookupA_eraseA_self]
  simp [lookupA]

theorem lookupA_insertA_ne (l : List (K × CacheEntry V)) (k k' : K)
    (e : CacheEntry V) (h : k' ≠ k) :
    lookupA (insertA l k e) k' = lookupA l k' := by
  rw [insertA, lookupA_append]
  rw [lookupA_eraseA_ne l k k' h]
  cases hl : lookupA l k' with
  | none =>
    have hk : ¬ (k = k') := fun hh => h hh.symm
    simp [lookupA, hk]
  | some e' => rfl

theorem eraseA_of_lookupA_none (l : List (K × CacheEntry V)) (k : K)
    (h : lookupA l k = none) : eraseA l k = l := by
  induction l with
  | nil => rfl
  | cons p rest ih =>
    obtain ⟨k', e⟩ := p
    simp only [lookupA] at h
    by_cases h2 : k' = k
    · rw [if_pos h2] at h
      exact absurd h (by simp)
    · rw [if_neg h2] at h
      simp [eraseA, h2, ih h]

theorem length_insertA_of_none (l : List (K × CacheEntry V)) (k : K)
    (e : CacheEntry V) (h : lookupA l k = none) :
    (insertA l k e).length = l.length + 1 := by
  rw [insertA, eraseA_of_lookupA_none l k h]
  simp

/-! ### Lemmas about the recency deque -/

/-- Number of occurrences of a key in the recency deque. -/
def countKey : List K → K → Nat
  | [], _ => 0
  | x :: rest, k => (if x = k then 1 else 0) + countKey rest k

theorem removeFirst_cons_self (l : List K) (k : K) :
    removeFirst (k :: l) k = l := by
  simp [removeFirst]

theorem not_mem_of_countKey_zero (l : List K) (k : K)
    (h : countKey l k = 0) : k ∉ l := by
  induction l with
  | nil => simp
  | cons x rest ih =>
    simp only [countKey] at h
    by_cases h2 : x = k
    · rw [if_pos h2] at h
      omega
    · rw [if_neg h2] at h
      have hrest := ih (by omega)
      intro hmem
      rcases List.mem_cons.mp hmem with hh | hh
      · exact h2 hh.symm
      · exact hrest hh

theorem not_mem_removeFirst_of_countKey_le_one (l : List K) (k : K)
    (h : countKey l k ≤ 1) : k ∉ removeFirst l k := by
  induction l with
  | nil => simp [removeFirst]
  | cons x rest ih =>
    simp only [countKey] at h
    simp only [removeFirst]
    by_cases h2 : x = k
    · rw [if_pos h2] at h ⊢
      exact not_mem_of_countKey_zero rest k (by omega)
    · rw [if_neg h2] at h ⊢
      have hrest := ih (by omega)
      intro hmem
      rcases List.mem_cons.mp hmem with hh | hh
      · exact h2 hh.symm
      · exact hrest hh

/-! ### Unfolding lemmas for Cache.set -/

theorem set_of_not_full (c : Cache K V) (key : K) (v : V) (ttl now : Nat)
    (h : ¬ (c.data.length = c.max_size)) :
    c.set key v ttl now =
      { c with data := insertA c.data key ⟨v, now + ttl⟩,
               order := c.order ++ [key] } := by
  simp only [Cache.set]
  rw [if_neg h]

theorem set_of_full_cons (c : Cache K V) (key : K) (v : V) (ttl now : Nat)
    (k0 : K) (restOrder : List K)
    (hlen : c.data.length = c.max_size) (horder : c.order = k0 :: restOrder) :
    c.set key v ttl now =
      { c with data := insertA (eraseA c.data k0) key ⟨v, now + ttl⟩,
               order := restOrder ++ [key] } := by
  simp only [Cache.set, horder]
  rw [if_pos hlen]

/-! ### Claim theorems -/

/-- C1: the claim states that entries.size stays at or below capacity after
every Set. The code violates this: a cache of capacity 0 accepts its very
first Set (pop_front on the empty deque evicts nothing, the guard compares
with equality), leaving one entry while max_size is 0. -/
theorem capacity_bound_violated_at_zero_capacity :
    ((Cache.new 0 : Cache Nat Nat).set 0 7 5 0).data.length = 1 ∧
    ((Cache.new 0 : Cache Nat Nat).set 0 7 5 0).max_size = 0 := by decide

/-- C3: the claim states that Set removes any prior occurrence of the key
from the recency deque before appending it, keeping entries and recency in
bijection. The code never removes the prior occurrence: overwriting key 1
below capacity leaves the deque [1, 1] while the map holds one entry. -/
theorem set_duplicates_recency_on_overwrite :
    (((Cache.new 2 : Cache Nat Nat).set 1 10 5 0).set 1 11 5 0).order = [1, 1] ∧
    (((Cache.new 2 : Cache Nat Nat).set 1 10 5 0).set 1 11 5 0).data.length = 1 := by decide

/-- C6: the claim states that a capacity-0 cache evicts immediately after
every insert, leaving the map empty after each Set. The code instead keeps
the first entry (nothing to pop from the empty deque) and then, the length
never again matching max_size, keeps growing. -/
theorem zero_capacity_cache_retains_entries :
    ((Cache.new 0 : Cache Nat Nat).set 0 7 5 0).data.length = 1 ∧
    (((Cache.new 0 : Cache Nat Nat).set 0 7 5 0).set 1 8 5 0).data.length = 2 := by decide

/-- A reachable state whose recency deque holds a key (1) that the map no
longer binds: overwrite key 1 below capacity (duplicating it in the deque),
fill to capacity, then trigger one eviction. -/
def staleOrderState : Cache Nat Nat :=
  ((((Cache.new 2).set 1 10 5 0).set 1 11 5 0).set 2 20 5 0).set 3 30 5 0

/-- C7: the claim states that Delete on an absent key leaves the cache
structurally unchanged. In the reachable state staleOrderState key 1 is
absent from the map yet still sits in the recency deque, so Delete(1)
returns none but mutates the deque from [1, 2, 3] to [2, 3]. -/
theorem delete_absent_key_mutates_recency :
    lookupA staleOrderState.data 1 = none ∧
    staleOrderState.order = [1, 2, 3] ∧
    (staleOrderState.delete 1).1 = none ∧
    (staleOrderState.delete 1).2.order = [2, 3] := by decide

/-- A capacity-2 cache filled to capacity with keys 1 and 2, key 1 oldest. -/
def atCapacityCache : Cache Nat Nat := ((Cache.new 2).set 1 10 5 0).set 2 20 5 0

/-- C2 counterexample: with the cache at capacity and key 1 the oldest,
the claim says Set(1, newValue) evicts key 2. In fact pop_front removes
key 1 itself (the front of the deque), key 1 is then reinserted, and key 2
keeps its entry. -/
theorem overwrite_front_does_not_evict_second_oldest :
    atCapacityCache.data.length = atCapacityCache.max_size ∧
    atCapacityCache.order = [1, 2] ∧
    lookupA (atCapacityCache.set 1 99 5 0).data 2 = some ⟨20, 5⟩ := by decide

/-- C2 amended: at capacity with k1 at the front of the recency deque,
Set(k1, v, ttl) pops and evicts k1 itself, then reinserts it, so afterwards
k1 maps to the new entry, every other key is untouched, and the deque is
the old tail with k1 appended. -/
theorem set_overwrite_front_at_capacity (c : Cache K V) (k1 other : K)
    (rest : List K) (v : V) (ttl now : Nat)
    (hlen : c.data.length = c.max_size) (horder : c.order = k1 :: rest)
    (hother : other ≠ k1) :
    lookupA (c.set k1 v ttl now).data k1 = some ⟨v, now + ttl⟩ ∧
    lookupA (c.set k1 v ttl now).data other = lookupA c.data other ∧
    (c.set k1 v ttl now).order = rest ++ [k1] := by
  simp only [Cache.set, hlen, horder, if_pos]
  refine ⟨lookupA_insertA_self _ _ _, ?_, by simp⟩
  rw [lookupA_insertA_ne _ _ _ _ hother]
  exact lookupA_eraseA_ne _ _ _ hother

/-- C2 amended, witness at the concrete capacity-2 cache. -/
theorem set_overwrite_front_at_capacity_witness :
    lookupA (atCapacityCache.set 1 99 7 3).data 1 = some ⟨99, 10⟩ ∧
    lookupA (atCapacityCache.set 1 99 7 3).data 2 = lookupA atCapacityCache.data 2 ∧
    (atCapacityCache.set 1 99 7 3).order = [2] ++ [1] :=
  set_overwrite_front_at_capacity atCapacityCache 1 2 [2] 99 7 3
    (by decide) (by decide) (by decide)

/-- C8: Set(k, v, d) followed by Get(k) at any instant strictly before
now + d returns v; in particular an immediate Get with d positive does. -/
theorem set_then_get_roundtrip (c : Cache K V) (key : K) (v : V)
    (d now t : Nat) (h : t < now + d) :
    ((c.set key v d now).get key t).1 = some v := by
  have hl : lookupA (c.set key v d now).data key = some ⟨v, now + d⟩ := by
    simp only [Cache.set]
    exact lookupA_insertA_self _ key _
  simp only [Cache.get, hl]
  rw [if_neg (show ¬ (now + d ≤ t) by omega)]
  simp [hl]

/-- C8 witness: a concrete immediate round trip. -/
theorem set_then_get_roundtrip_witness :
    (((Cache.new 3 : Cache Nat Nat).set 5 42 10 0).get 5 0).1 = some 42 :=
  set_then_get_roundtrip (Cache.new 3) 5 42 10 0 0 (by decide)

/-- C9: Set with ttl 0 stores expiration now + 0, so a Get at any instant
t at or after now sees an expired entry, reaps it and returns none. -/
theorem zero_ttl_expired (c : Cache K V) (key : K) (v : V) (now t : Nat)
    (h : now ≤ t) :
    ((c.set key v 0 now).get key t).1 = none ∧
    lookupA ((c.set key v 0 now).get key t).2.data key = none := by
  have hl : lookupA (c.set key v 0 now).data key = some ⟨v, now + 0⟩ := by
    simp only [Cache.set]
    exact lookupA_insertA_self _ key _
  simp only [Cache.get, hl]
  rw [if_pos (show (⟨v, now + 0⟩ : CacheEntry V).expiration ≤ t by simpa using h)]
  refine ⟨rfl, ?_⟩
  simp only [Cache.delete]
  exact lookupA_eraseA_self _ key

/-- C9 witness: ttl 0 at instant 4, observed at the same instant 4. -/
theorem zero_ttl_expired_witness :
    (((Cache.new 3 : Cache Nat Nat).set 5 42 0 4).get 5 4).1 = none ∧
    lookupA ((((Cache.new 3 : Cache Nat Nat).set 5 42 0 4).get 5 4)).2.data 5 = none :=
  zero_ttl_expired (Cache.new 3) 5 42 4 4 (by decide)

/-- C10: Get on a key with no entry returns none and leaves the whole
cache state untouched. -/
theorem get_miss_unchanged (c : Cache K V) (key : K) (now : Nat)
    (h : lookupA c.data key = none) :
    c.get key now = (none, c) := by
  simp only [Cache.get, h]

/-- C10 witness: a miss on the fresh cache. -/
theorem get_miss_unchanged_witness :
    (Cache.new 3 : Cache Nat Nat).get 9 0 = (none, (Cache.new 3 : Cache Nat Nat)) :=
  get_miss_unchanged (Cache.new 3) 9 0 (by decide)

/-- C5: behavior of Get when the key appears at most once in the recency
deque (as in every state the spec admits). A miss returns none; a hit on an
entry whose expiration is at or before now destroys the entry, removing it
from map and deque, and returns none; a live hit returns the value and only
moves the key from its current deque position to the back. -/
theorem get_follows_spec (c : Cache K V) (key : K) (now : Nat)
    (hcount : countKey c.order key ≤ 1) :
    match lookupA c.data key with
    | none => (c.get key now).1 = none
    | some entry =>
      if entry.expiration ≤ now then
        (c.get key now).1 = none ∧
        lookupA (c.get key now).2.data key = none ∧
        key ∉ (c.get key now).2.order
      else
        c.get key now =
          (some entry.value,
           { c with order := removeFirst c.order key ++ [key] }) := by
  split
  · next h => simp only [Cache.get, h]
  · next entry h =>
    by_cases h2 : entry.expiration ≤ now
    · rw [if_pos h2]
      simp only [Cache.get, h, if_pos h2]
      refine ⟨by trivial, ?_, ?_⟩
      · simp only [Cache.delete]
        exact lookupA_eraseA_self _ key
      · simp only [Cache.delete]
        exact not_mem_removeFirst_of_countKey_le_one _ _ hcount
    · rw [if_neg h2]
      simp only [Cache.get, h, if_neg h2]
      simp [h]

/-- A capacity-2 cache holding keys 1 and 2, both live until instant 5. -/
def getWitnessCache : Cache Nat Nat := ((Cache.new 2).set 1 10 5 0).set 2 20 5 0

/-- C5 witness: a live hit on key 1 at instant 3 returns 10 and moves key 1
to the back of the deque. -/
theorem get_follows_spec_witness :
    getWitnessCache.get 1 3 =
      (some 10,
       { getWitnessCache with
           order := removeFirst getWitnessCache.order 1 ++ [1] }) :=
  get_follows_spec getWitnessCache 1 3 (by decide)

/-- Inserting a list of keys that are all new to the cache, while the total
stays within capacity, triggers no eviction: the deque gets the keys
appended in order, every new key maps to its fresh entry, other lookups are
unchanged, and the map grows by one entry per key. -/
theorem setAll_spec (f : K → V) (d t : Nat) :
    ∀ (ks : List K) (c : Cache K V),
      (∀ k : K, (lookupA c.data k).isSome ↔ k ∈ c.order) →
      c.data.length = c.order.length →
      (∀ k ∈ ks, k ∉ c.order) →
      ks.Nodup →
      c.order.length + ks.length ≤ c.max_size →
      (setAll c ks f d t).order = c.order ++ ks ∧
      (∀ k : K, lookupA (setAll c ks f d t).data k =
          if k ∈ ks then some ⟨f k, t + d⟩ else lookupA c.data k) ∧
      (setAll c ks f d t).max_size = c.max_size ∧
      (setAll c ks f d t).data.length = c.data.length + ks.length := by
  intro ks
  induction ks with
  | nil =>
    intro c hmem hlen hfresh hnodup hcap
    refine ⟨by simp [setAll], ?_, rfl, by simp [setAll]⟩
    intro k
    simp [setAll]
  | cons k0 rest ih =>
    intro c hmem hlen hfresh hnodup hcap
    have hnotfull : ¬ (c.data.length = c.max_size) := by
      rw [hlen]
      simp only [List.length_cons] at hcap
      omega
    have hk0 : lookupA c.data k0 = none := by
      cases hl : lookupA c.data k0 with
      | none => rfl
      | some e =>
        exact absurd ((hmem k0).mp (by simp [hl])) (hfresh k0 (by simp))
    have hk0rest : k0 ∉ rest := (List.nodup_cons.mp hnodup).1
    have hset := set_of_not_full c k0 (f k0) d t hnotfull
    have hstep : setAll c (k0 :: rest) f d t =
        setAll ({ c with data := insertA c.data k0 ⟨f k0, t + d⟩,
                         order := c.order ++ [k0] }) rest f d t := by
      simp only [setAll, hset]
    have hih := ih ({ c with data := insertA c.data k0 ⟨f k0, t + d⟩,
                             order := c.order ++ [k0] })
      (by
        intro k
        by_cases hk : k = k0
        · subst hk
          simp [lookupA_insertA_self]
        · simp only [lookupA_insertA_ne c.data k0 k _ hk]
          rw [hmem k]
          simp [hk])
      (by
        simp only [length_insertA_of_none c.data k0 _ hk0, List.length_append,
          List.length_singleton]
        omega)
      (by
        intro k hk
        simp only [List.mem_append, List.mem_singleton]
        rintro (hin | hin)
        · exact hfresh k (by simp [hk]) hin
        · exact hk0rest (hin ▸ hk))
      ((List.nodup_cons.mp hnodup).2)
      (by
        simp only [List.length_append, List.length_singleton]
        simp only [List.length_cons] at hcap
        omega)
    obtain ⟨ho, hlk, hms, hdl⟩ := hih
    rw [hstep]
    refine ⟨?_, ?_, ?_, ?_⟩
    · rw [ho]
      simp
    · intro k
      rw [hlk k]
      by_cases hk : k ∈ rest
      · simp [hk]
      · by_cases hk2 : k = k0
        · subst hk2
          simp [hk, lookupA_insertA_self]
        · rw [lookupA_insertA_ne c.data k0 k _ hk2]
          simp [hk, hk2]
    · exact hms
    · rw [hdl]
      simp only [length_insertA_of_none c.data k0 _ hk0, List.length_cons]
      omega

/-- The full LRU scenario of the claim: fill a fresh cache of capacity n
with the n distinct keys k1, k2, rest in order, Get k1 (promoting it),
then Set one more distinct key. -/
def lruScenario (k1 k2 knew : K) (rest : List K) (f : K → V)
    (d t t1 : Nat) (v' : V) (d' t2 : Nat) : Cache K V :=
  ((((setAll (Cache.new (k1 :: k2 :: rest).length) (k1 :: k2 :: rest) f d t).get
      k1 t1)).2).set knew v' d' t2

/-- C4: after filling a fresh cache of capacity n with n distinct keys in
order, a Get of the first key k1 (still live) promotes it, so the next Set
of a fresh key evicts k2 and not k1: afterwards k2 is absent while k1, all
later keys and the new key are present. -/
theorem lru_promote_then_evict_second (k1 k2 knew : K) (rest : List K)
    (f : K → V) (d t t1 : Nat) (v' : V) (d' t2 : Nat)
    (hnodup : (k1 :: k2 :: rest).Nodup)
    (hknew : knew ∉ k1 :: k2 :: rest)
    (hlive : t1 < t + d) :
    lookupA (lruScenario k1 k2 knew rest f d t t1 v' d' t2).data k2 = none ∧
    lookupA (lruScenario k1 k2 knew rest f d t t1 v' d' t2).data k1 =
      some ⟨f k1, t + d⟩ ∧
    (∀ k ∈ rest,
      lookupA (lruScenario k1 k2 knew rest f d t t1 v' d' t2).data k =
        some ⟨f k, t + d⟩) ∧
    lookupA (lruScenario k1 k2 knew rest f d t t1 v' d' t2).data knew =
      some ⟨v', t2 + d'⟩ := by
  have hk1k2 : k1 ≠ k2 := by
    have := (List.nodup_cons.mp hnodup).1
    intro hh
    exact this (by simp [hh])
  have hk1rest : k1 ∉ rest := by
    have := (List.nodup_cons.mp hnodup).1
    intro hh
    exact this (by simp [hh])
  have hk2rest : k2 ∉ rest := (List.nodup_cons.mp (List.nodup_cons.mp hnodup).2).1
  have hknewk1 : k1 ≠ knew := fun hh => hknew (by simp [hh.symm])
  have hknewk2 : k2 ≠ knew := fun hh => hknew (by simp [hh.symm])
  have hfill := setAll_spec f d t (k1 :: k2 :: rest)
    (Cache.new (k1 :: k2 :: rest).length)
    (by intro k; simp [Cache.new, lookupA])
    (by simp [Cache.new])
    (by intro k hk; simp [Cache.new])
    hnodup
    (by simp [Cache.new])
  obtain ⟨ho, hlk, hms, hdl⟩ := hfill
  have hc1order : (setAll (Cache.new (k1 :: k2 :: rest).length)
      (k1 :: k2 :: rest) f d t).order = k1 :: k2 :: rest := by
    rw [ho]
    simp [Cache.new]
  have hc1k1 : lookupA (setAll (Cache.new (k1 :: k2 :: rest).length)
      (k1 :: k2 :: rest) f d t).data k1 = some ⟨f k1, t + d⟩ := by
    rw [hlk k1]
    simp
  have hexp : ¬ ((⟨f k1, t + d⟩ : CacheEntry V).expiration ≤ t1) := by
    show ¬ (t + d ≤ t1)
    omega
  have hget : ((setAll (Cache.new (k1 :: k2 :: rest).length)
      (k1 :: k2 :: rest) f d t).get k1 t1).2 =
      { setAll (Cache.new (k1 :: k2 :: rest).length) (k1 :: k2 :: rest) f d t with
          order := removeFirst (setAll (Cache.new (k1 :: k2 :: rest).length)
            (k1 :: k2 :: rest) f d t).order k1 ++ [k1] } := by
    simp only [Cache.get, hc1k1, hexp, if_false]
  have hc2order : ((setAll (Cache.new (k1 :: k2 :: rest).length)
      (k1 :: k2 :: rest) f d t).get k1 t1).2.order = k2 :: (rest ++ [k1]) := by
    rw [hget]
    simp only [hc1order, removeFirst_cons_self]
    rfl
  have hc2data : ((setAll (Cache.new (k1 :: k2 :: rest).length)
      (k1 :: k2 :: rest) f d t).get k1 t1).2.data =
      (setAll (Cache.new (k1 :: k2 :: rest).length)
        (k1 :: k2 :: rest) f d t).data := by
    rw [hget]
  have hc2len : ((setAll (Cache.new (k1 :: k2 :: rest).length)
      (k1 :: k2 :: rest) f d t).get k1 t1).2.data.length =
      ((setAll (Cache.new (k1 :: k2 :: rest).length)
        (k1 :: k2 :: rest) f d t).get k1 t1).2.max_size := by
    rw [hc2data, hget]
    show (setAll (Cache.new (k1 :: k2 :: rest).length)
        (k1 :: k2 :: rest) f d t).data.length =
      (setAll (Cache.new (k1 :: k2 :: rest).length)
        (k1 :: k2 :: rest) f d t).max_size
    rw [hdl, hms]
    simp [Cache.new]
  have hfinal := set_of_full_cons
    ((setAll (Cache.new (k1 :: k2 :: rest).length)
      (k1 :: k2 :: rest) f d t).get k1 t1).2
    knew v' d' t2 k2 (rest ++ [k1]) hc2len hc2order
  have hfd : (lruScenario k1 k2 knew rest f d t t1 v' d' t2).data =
      insertA (eraseA (setAll (Cache.new (k1 :: k2 :: rest).length)
        (k1 :: k2 :: rest) f d t).data k2) knew ⟨v', t2 + d'⟩ := by
    show (((((setAll (Cache.new (k1 :: k2 :: rest).length)
      (k1 :: k2 :: rest) f d t).get k1 t1)).2).set knew v' d' t2).data = _
    rw [hfinal, hc2data]
  refine ⟨?_, ?_, ?_, ?_⟩
  · rw [hfd, lookupA_insertA_ne _ _ _ _ hknewk2]
    exact lookupA_eraseA_self _ k2
  · rw [hfd, lookupA_insertA_ne _ _ _ _ hknewk1,
      lookupA_eraseA_ne _ _ _ hk1k2, hlk k1]
    simp
  · intro k hk
    have hkknew : k ≠ knew := fun hh => hknew (hh ▸ by simp [hk])
    have hkk2 : k ≠ k2 := fun hh => hk2rest (hh ▸ hk)
    rw [hfd, lookupA_insertA_ne _ _ _ _ hkknew,
      lookupA_eraseA_ne _ _ _ hkk2, hlk k]
    simp [hk]
  · rw [hfd]
    exact lookupA_insertA_self _ knew _

/-- C4 witness: capacity 3, keys 0, 1, 2 inserted at instant 0 with ttl 5,
Get 0 at instant 1, then Set of key 3: key 1 is evicted, keys 0, 2, 3
remain. -/
theorem lru_promote_then_evict_second_witness :
    lookupA (lruScenario 0 1 3 [2] (fun k => k + 10) 5 0 1 40 7 2).data 1 = none ∧
    lookupA (lruScenario 0 1 3 [2] (fun k => k + 10) 5 0 1 40 7 2).data 0 =
      some ⟨10, 5⟩ ∧
    lookupA (lruScenario 0 1 3 [2] (fun k => k + 10) 5 0 1 40 7 2).data 2 =
      some ⟨12, 5⟩ ∧
    lookupA (lruScenario 0 1 3 [2] (fun k => k + 10) 5 0 1 40 7 2).data 3 =
      some ⟨40, 9⟩ := by
  have h := lru_promote_then_evict_second 0 1 3 [2] (fun k => k + 10) 5 0 1 40 7 2
    (by decide) (by decide) (by decide)
  exact ⟨h.1, h.2.1, h.2.2.1 2 (by simp), h.2.2.2⟩

end ElCache
